import Mathlib

/-!
Verification of the grid core of `wasm-spreadsheet` (`src/lib.rs`).

Shallow embedding conventions:
* `u32` values are `Nat`; where the source performs `u32` arithmetic that can
  overflow (`column_id + 1` in `get_column_name`) we reduce modulo `U32 = 2^32`,
  matching wrapping (release-build) semantics.
* `f64` values are `Rat`.  Every floating-point quantity the program computes
  (multiples of 80.0 and 30.0, and their sums, all below 2^53) is exactly
  representable in `f64` and every operation on them is exact, so rational
  arithmetic is a faithful model.
* The `CanvasRenderingContext2d` is modelled by the trace of calls issued to
  it (`CanvasOp`); constructors that draw return the trace alongside the value.
-/

/-- One `u32` past the maximum: `2^32`. -/
def U32 : Nat := 4294967296

/-- `enum CellValue { String(Option<String>), Int(Option<i32>), Float(Option<f32>) }`.
The `f32` payload is modelled as `Rat`; the core only ever builds `str none`. -/
inductive CellValue where
  | str : Option String → CellValue
  | int : Option Int → CellValue
  | float : Option Rat → CellValue
  deriving DecidableEq, Repr

/-- One call issued on the 2D drawing context. -/
inductive CanvasOp where
  | beginPath : CanvasOp
  | rect : Rat → Rat → Rat → Rat → CanvasOp
  | stroke : CanvasOp
  deriving DecidableEq, Repr

/-- `struct CellObject` (the `ctx` handle is modelled externally via traces). -/
structure CellObject where
  column_id : Nat
  row_id : Nat
  height : Rat
  width : Rat
  value : CellValue
  deriving DecidableEq, Repr

/-- `CellObject::new`: stores the attributes verbatim, value starts `String(None)`. -/
def CellObject.new (column_id row_id : Nat) (height width : Rat) : CellObject :=
  { column_id := column_id, row_id := row_id, height := height, width := width,
    value := CellValue.str none }

/-- `CellObject::get_value`: returns a copy of the value. -/
def CellObject.get_value (c : CellObject) : CellValue :=
  c.value

/-- `impl Border for CellObject { fn draw(&self) }`: begin a path, issue the
rectangle at `(column_id * width, row_id * height)` of size `(width, height)`,
stroke it.  The result is the trace of context calls. -/
def CellObject.draw (c : CellObject) : List CanvasOp :=
  [CanvasOp.beginPath,
   CanvasOp.rect ((c.column_id : Rat) * c.width) ((c.row_id : Rat) * c.height)
     c.width c.height,
   CanvasOp.stroke]

/-- `enum ColumnType { String, Int, Float }`. -/
inductive ColumnType where
  | str : ColumnType
  | int : ColumnType
  | float : ColumnType
  deriving DecidableEq, Repr

/-- `struct Column`. -/
structure Column where
  column_id : Nat
  column_type : ColumnType
  cells : List CellObject
  width : Rat
  deriving DecidableEq, Repr

/-- `(b'A'..=b'Z')` as a list of byte values, 65 … 90. -/
def az : List Nat := (List.range 26).map (fun i => 65 + i)

/-- The `while n > 0` loop of `Column::get_column_name`, one constructor of
fuel per iteration (the loop value strictly decreases, so `fuel = n` always
suffices; `nameLoop_zero` and `nameLoop_pos` below prove the exact while-loop
equations): decrement `n`, look the digit `n % 26` up among the enumerated
letters `A..=Z`, push the letter if found, divide `n` by 26, repeat.  `name`
is the accumulator string (a char list, pushed at the end like Rust's
`String::push`). -/
def nameLoopF : Nat → Nat → List Char → List Char
  | 0, _, name => name
  | fuel + 1, n, name =>
    if 0 < n then
      nameLoopF fuel ((n - 1) / 26)
        (match az.enum.find? (fun p => p.1 == (n - 1) % 26) with
         | some (_, c) => name ++ [Char.ofNat c]
         | none => name)
    else
      name

/-- The loop, entered with enough fuel for every iteration. -/
def nameLoop (n : Nat) (name : List Char) : List Char :=
  nameLoopF n n name

/-- `Column::get_column_name` as a function of the (u32) `column_id` alone:
`n = column_id + 1` with wrapping u32 increment, run the loop, reverse. -/
def columnName (column_id : Nat) : String :=
  String.mk ((nameLoop ((column_id + 1) % U32) []).reverse)

/-- `Column::new`: builds `num_rows` cells (height 30.0), drawing each
immediately after construction; returns the column and the draw trace. -/
def Column.new (column_id num_rows : Nat) (width : Rat) : Column × List CanvasOp :=
  let pairs := (List.range num_rows).map (fun row_id =>
    let cell := CellObject.new column_id row_id 30 width
    (cell, cell.draw))
  ({ column_id := column_id, column_type := ColumnType.str,
     cells := pairs.map Prod.fst, width := width },
   (pairs.map Prod.snd).flatten)

/-- `Column::get_width`. -/
def Column.get_width (c : Column) : Rat :=
  c.width

/-- `Column::set_width`: updates only the `width` field; issues no context
calls (empty trace). -/
def Column.set_width (c : Column) (new_width : Rat) : Column × List CanvasOp :=
  ({ c with width := new_width }, [])

/-- `Column::get_column_name` (method form). -/
def Column.get_column_name (c : Column) : String :=
  columnName c.column_id

/-- `struct Grid`. -/
structure Grid where
  num_rows : Nat
  num_cols : Nat
  columns : List Column
  deriving DecidableEq, Repr

/-- `Grid::new`: builds columns `0 … num_cols-1`, each of width 80.0; the trace
is the concatenation of the columns' traces in order. -/
def Grid.new (num_rows num_cols : Nat) : Grid × List CanvasOp :=
  let pairs := (List.range num_cols).map (fun column_id =>
    Column.new column_id num_rows 80)
  ({ num_rows := num_rows, num_cols := num_cols, columns := pairs.map Prod.fst },
   (pairs.map Prod.snd).flatten)

/-- `Grid::get_column`: `self.columns.get(col_num)`. -/
def Grid.get_column (g : Grid) (col_num : Nat) : Option Column :=
  g.columns.get? col_num

/-- `Grid::get_width`: sum of the column widths. -/
def Grid.get_width (g : Grid) : Rat :=
  (g.columns.map Column.get_width).sum

/-- `pub fn add(a: u32, b: u32) -> u32` (wrapping at 2^32). -/
def add (a b : Nat) : Nat :=
  (a + b) % U32

/-- Modelled from the spec: "Let n = column_id + 1.  Produce digits
least-significant first: while n > 0, set n ← n − 1; emit the letter at
position (n mod 26) of A–Z; set n ← n ÷ 26.  Reverse the emitted sequence."
The emitted sequence, first-emitted first, with exact (unbounded) arithmetic. -/
def specEmitF : Nat → Nat → List Char
  | 0, _ => []
  | fuel + 1, n =>
    if 0 < n then
      Char.ofNat (65 + (n - 1) % 26) :: specEmitF fuel ((n - 1) / 26)
    else
      []

/-- Modelled from the spec: the emission loop entered with enough fuel
(`specEmit_zero` and `specEmit_pos` prove the exact loop equations). -/
def specEmit (n : Nat) : List Char :=
  specEmitF n n

/-- Modelled from the spec: the column name is the reversed emitted sequence. -/
def spec_column_name (column_id : Nat) : String :=
  String.mk ((specEmit (column_id + 1)).reverse)

/-- Strict lexicographic order on char lists (by code point; a proper prefix
precedes its extensions). -/
def lexLt : List Char → List Char → Bool
  | _, [] => false
  | [], _ :: _ => true
  | a :: x, b :: y => decide (a.toNat < b.toNat) || (a == b && lexLt x y)

/-- The order of the monotonicity claim: shorter strings first, lexicographic
within equal lengths. -/
def shortlexLt (a b : String) : Bool :=
  decide (a.data.length < b.data.length) ||
    (a.data.length == b.data.length && lexLt a.data b.data)

/-- The name, most-significant digit first, produced for a (post-increment)
value `m`: the reversal of the loop's output. -/
def nameMS (m : Nat) : List Char := (nameLoop m []).reverse

/-! ### Lemmas about the naming loop -/

/-- Every digit `k < 26` is found among the enumerated letters, at index `k`,
yielding the byte `65 + k`. -/
theorem find_az : ∀ k, k < 26 →
    az.enum.find? (fun p => p.1 == k) = some (k, 65 + k) := by
  decide

theorem nameLoopF_n_zero (fuel : Nat) (name : List Char) :
    nameLoopF fuel 0 name = name := by
  cases fuel <;> simp [nameLoopF]

/-- The fuel argument is irrelevant as long as it covers the loop value. -/
theorem nameLoopF_irrel (fuel1 : Nat) : ∀ fuel2 n name, n ≤ fuel1 → n ≤ fuel2 →
    nameLoopF fuel1 n name = nameLoopF fuel2 n name := by
  induction fuel1 with
  | zero =>
    intro fuel2 n name h1 _
    have h0 : n = 0 := Nat.le_zero.mp h1
    subst h0
    rw [nameLoopF_n_zero, nameLoopF_n_zero]
  | succ f1 ih =>
    intro fuel2 n name h1 h2
    rcases Nat.eq_zero_or_pos n with h0 | hp
    · subst h0
      rw [nameLoopF_n_zero, nameLoopF_n_zero]
    · rcases fuel2 with _ | f2
      · omega
      · simp only [nameLoopF, if_pos hp]
        exact ih f2 ((n - 1) / 26) _ (by omega) (by omega)

theorem nameLoop_zero (acc : List Char) : nameLoop 0 acc = acc := rfl

/-- One iteration of the loop: the letter lookup succeeds and appends exactly
one character. -/
theorem nameLoop_pos (n : Nat) (acc : List Char) (h : 0 < n) :
    nameLoop n acc =
      nameLoop ((n - 1) / 26) (acc ++ [Char.ofNat (65 + (n - 1) % 26)]) := by
  unfold nameLoop
  rcases n with _ | m
  · omega
  · simp only [nameLoopF, if_pos h]
    rw [find_az _ (Nat.mod_lt _ (by norm_num))]
    exact nameLoopF_irrel m _ _ _ (by omega) (Nat.le_refl _)

/-- The quotient taken by one loop iteration is strictly smaller. -/
theorem loop_measure_lt {n : Nat} (h : 0 < n) : (n - 1) / 26 < n :=
  Nat.lt_of_le_of_lt (Nat.div_le_self _ _) (Nat.sub_lt h Nat.one_pos)

/-- The accumulator only ever receives appends. -/
theorem nameLoop_acc (n : Nat) : ∀ acc : List Char,
    nameLoop n acc = acc ++ nameLoop n [] := by
  induction n using Nat.strong_induction_on with
  | _ n ih =>
    intro acc
    rcases Nat.eq_zero_or_pos n with h0 | hp
    · subst h0; simp [nameLoop_zero]
    · rw [nameLoop_pos n acc hp, nameLoop_pos n [] hp,
        ih _ (loop_measure_lt hp) (acc ++ [Char.ofNat (65 + (n - 1) % 26)]),
        ih _ (loop_measure_lt hp) ([] ++ [Char.ofNat (65 + (n - 1) % 26)])]
      simp

theorem nameMS_zero : nameMS 0 = [] := by
  simp [nameMS, nameLoop_zero]

/-- Recurrence for `nameMS`: peel off the least-significant digit. -/
theorem nameMS_rec (m : Nat) (h : 0 < m) :
    nameMS m = nameMS ((m - 1) / 26) ++ [Char.ofNat (65 + (m - 1) % 26)] := by
  unfold nameMS
  rw [nameLoop_pos m [] h, nameLoop_acc _ ([] ++ [Char.ofNat (65 + (m - 1) % 26)])]
  simp

theorem columnName_eq_nameMS (column_id : Nat) :
    columnName column_id = String.mk (nameMS ((column_id + 1) % U32)) := rfl

/-- The loop agrees with the spec's emitted sequence on equal inputs. -/
theorem specEmitF_n_zero (fuel : Nat) : specEmitF fuel 0 = [] := by
  cases fuel <;> simp [specEmitF]

theorem specEmitF_irrel (fuel1 : Nat) : ∀ fuel2 n, n ≤ fuel1 → n ≤ fuel2 →
    specEmitF fuel1 n = specEmitF fuel2 n := by
  induction fuel1 with
  | zero =>
    intro fuel2 n h1 _
    have h0 : n = 0 := Nat.le_zero.mp h1
    subst h0
    rw [specEmitF_n_zero, specEmitF_n_zero]
  | succ f1 ih =>
    intro fuel2 n h1 h2
    rcases Nat.eq_zero_or_pos n with h0 | hp
    · subst h0
      rw [specEmitF_n_zero, specEmitF_n_zero]
    · rcases fuel2 with _ | f2
      · omega
      · simp only [specEmitF, if_pos hp]
        rw [ih f2 ((n - 1) / 26) (by omega) (by omega)]

theorem specEmit_zero : specEmit 0 = [] := rfl

theorem specEmit_pos (n : Nat) (h : 0 < n) :
    specEmit n = Char.ofNat (65 + (n - 1) % 26) :: specEmit ((n - 1) / 26) := by
  unfold specEmit
  rcases n with _ | m
  · omega
  · simp only [specEmitF, if_pos h]
    rw [specEmitF_irrel m _ _ (by omega) (Nat.le_refl _)]

theorem nameLoop_eq_specEmit (n : Nat) : nameLoop n [] = specEmit n := by
  induction n using Nat.strong_induction_on with
  | _ n ih =>
    rcases Nat.eq_zero_or_pos n with h0 | hp
    · subst h0; rw [nameLoop_zero, specEmit_zero]
    · rw [nameLoop_pos n [] hp, nameLoop_acc, specEmit_pos n hp,
        ih _ (loop_measure_lt hp)]
      simp

theorem spec_column_name_eq_nameMS (column_id : Nat) :
    spec_column_name column_id = String.mk (nameMS (column_id + 1)) := by
  unfold spec_column_name nameMS
  rw [nameLoop_eq_specEmit]

/-! ### Character and lexicographic-order lemmas -/

theorem char_ofNat_toNat : ∀ k, k < 26 → (Char.ofNat (65 + k)).toNat = 65 + k := by
  decide

theorem char_digit_lt : ∀ ka, ka < 26 → ∀ kb, kb < 26 → ka < kb →
    (Char.ofNat (65 + ka)).toNat < (Char.ofNat (65 + kb)).toNat := by
  decide

/-- Appending one character to each of two lex-ordered, equal-length lists
preserves the order. -/
theorem lexLt_append_right (x : List Char) : ∀ y : List Char,
    x.length = y.length → lexLt x y = true →
    ∀ c d : Char, lexLt (x ++ [c]) (y ++ [d]) = true := by
  induction x with
  | nil =>
    intro y hlen hlex c d
    cases y with
    | nil => simp [lexLt] at hlex
    | cons b bs => simp at hlen
  | cons a t ih =>
    intro y hlen hlex c d
    cases y with
    | nil => simp at hlen
    | cons b bs =>
      simp only [lexLt, Bool.or_eq_true, Bool.and_eq_true, decide_eq_true_eq] at hlex
      simp only [List.cons_append, lexLt, Bool.or_eq_true, Bool.and_eq_true,
        decide_eq_true_eq]
      rcases hlex with h | ⟨hab, hx⟩
      · exact Or.inl h
      · exact Or.inr ⟨hab, ih bs (by simpa using hlen) hx c d⟩

/-- Two lists sharing a prefix, differing in a final character: the smaller
final character decides the lex order. -/
theorem lexLt_append_last (d : List Char) (c e : Char) (h : c.toNat < e.toNat) :
    lexLt (d ++ [c]) (d ++ [e]) = true := by
  induction d with
  | nil => simp [lexLt, h]
  | cons a t ih => simp [lexLt, ih]

/-! ### Shape facts about the produced name -/

theorem nameMS_length_pos (m : Nat) (h : 0 < m) : 0 < (nameMS m).length := by
  rw [nameMS_rec m h]; simp

theorem nameMS_ne_nil (m : Nat) (h : 0 < m) : nameMS m ≠ [] := by
  rw [nameMS_rec m h]; simp

/-- Every character of a produced name is an uppercase letter (codes 65–90). -/
theorem nameMS_upper (m : Nat) : ∀ c ∈ nameMS m, 65 ≤ c.toNat ∧ c.toNat ≤ 90 := by
  induction m using Nat.strong_induction_on with
  | _ m ih =>
    rcases Nat.eq_zero_or_pos m with h0 | hp
    · subst h0; simp [nameMS_zero]
    · rw [nameMS_rec m hp]
      intro c hc
      rcases List.mem_append.mp hc with h1 | h2
      · exact ih _ (loop_measure_lt hp) c h1
      · have hk : (m - 1) % 26 < 26 := Nat.mod_lt _ (by norm_num)
        have ht := char_ofNat_toNat _ hk
        simp only [List.mem_singleton] at h2
        subst h2
        rw [ht]
        omega

/-- Core monotonicity: on positive loop inputs, strictly larger numbers give
strictly shortlex-larger names. -/
theorem nameMS_slex (b : Nat) : ∀ a, 0 < a → a < b →
    (nameMS a).length < (nameMS b).length ∨
    ((nameMS a).length = (nameMS b).length ∧ lexLt (nameMS a) (nameMS b) = true) := by
  induction b using Nat.strong_induction_on with
  | _ b ih =>
    intro a ha hab
    have hb : 0 < b := Nat.lt_trans ha hab
    rw [nameMS_rec a ha, nameMS_rec b hb]
    have hdiv : (a - 1) / 26 ≤ (b - 1) / 26 := Nat.div_le_div_right (by omega)
    rcases Nat.lt_or_eq_of_le hdiv with hlt | heq
    · rcases Nat.eq_zero_or_pos ((a - 1) / 26) with ha0 | hapos
      · have hbpos : 0 < (b - 1) / 26 := by omega
        have h2 := nameMS_length_pos _ hbpos
        rw [ha0, nameMS_zero]
        left
        simp
        omega
      · rcases ih ((b - 1) / 26) (loop_measure_lt hb) ((a - 1) / 26) hapos hlt with
          hlen | ⟨hleneq, hlex⟩
        · left
          simp
          omega
        · right
          constructor
          · simp [hleneq]
          · exact lexLt_append_right _ _ hleneq hlex _ _
    · have hka : (a - 1) % 26 < (b - 1) % 26 := by omega
      rw [heq]
      right
      refine ⟨by simp, ?_⟩
      exact lexLt_append_last _ _ _
        (char_digit_lt _ (Nat.mod_lt _ (by norm_num)) _ (Nat.mod_lt _ (by norm_num)) hka)

/-! ### Structural facts about `Grid.new` and `Column.new` -/

theorem grid_new_columns (nr nc : Nat) :
    (Grid.new nr nc).1.columns =
      (List.range nc).map (fun cid => (Column.new cid nr 80).1) := by
  simp [Grid.new, List.map_map, Function.comp]

theorem column_new_cells (cid nr : Nat) (w : Rat) :
    (Column.new cid nr w).1.cells =
      (List.range nr).map (fun rid => CellObject.new cid rid 30 w) := by
  simp [Column.new, List.map_map, Function.comp]

theorem column_new_id (cid nr : Nat) (w : Rat) :
    (Column.new cid nr w).1.column_id = cid := rfl

theorem column_new_width (cid nr : Nat) (w : Rat) :
    (Column.new cid nr w).1.width = w := rfl

theorem sum_map_const_rat {α : Type} (l : List α) (k : Rat) :
    (l.map (fun _ => k)).sum = l.length * k := by
  induction l with
  | nil => simp
  | cons a t ih =>
    simp [ih]
    ring

theorem sum_map_const_nat {α : Type} (l : List α) (k : Nat) :
    (l.map (fun _ => k)).sum = l.length * k := by
  induction l with
  | nil => simp
  | cons a t ih =>
    simp [ih]
    ring

theorem grid_new_width (nr nc : Nat) :
    (Grid.new nr nc).1.get_width = (nc : Rat) * 80 := by
  unfold Grid.get_width
  rw [grid_new_columns, List.map_map]
  have h : (Column.get_width ∘ fun cid => (Column.new cid nr 80).1) =
      fun _ => (80 : Rat) := by
    funext cid
    rfl
  rw [h, sum_map_const_rat]
  simp

theorem grid_new_trace_eq (nr nc : Nat) :
    (Grid.new nr nc).2 =
      ((List.range nc).map (fun c : Nat =>
        ((List.range nr).map (fun r : Nat =>
          [CanvasOp.beginPath,
           CanvasOp.rect ((c : Rat) * 80) ((r : Rat) * 30) 80 30,
           CanvasOp.stroke])).flatten)).flatten := by
  simp [Grid.new, Column.new, CellObject.new, CellObject.draw, List.map_map,
    Function.comp_def]

/-! ### Claim theorems -/

/-- C1 counterexample: at `column_id = 2^32 - 1` the u32 increment
`column_id + 1` wraps to 0, so the code's name differs from the spec's
stated (exact-arithmetic) algorithm at that input. -/
theorem column_name_not_spec_at_uint_max :
    columnName 4294967295 ≠ spec_column_name 4294967295 := by
  decide

/-- C1 (amended): for every `column_id` whose increment is representable in
u32 (`column_id < 2^32 - 1`), `get_column_name` computes exactly the spec's
bijective base-26 algorithm; in particular ids 0–25 give the single letters
A–Z, and 26 ↦ "AA", 27 ↦ "AB", 51 ↦ "AZ", 52 ↦ "BA", 701 ↦ "ZZ",
702 ↦ "AAA". -/
theorem column_name_follows_spec_algorithm (column_id : Nat)
    (h : column_id < 4294967295) :
    columnName column_id = spec_column_name column_id ∧
    columnName 0 = "A" ∧ columnName 25 = "Z" ∧ columnName 26 = "AA" ∧
    columnName 27 = "AB" ∧ columnName 51 = "AZ" ∧ columnName 52 = "BA" ∧
    columnName 701 = "ZZ" ∧ columnName 702 = "AAA" ∧
    (∀ k, k < 26 → columnName k = String.mk [Char.ofNat (65 + k)]) := by
  refine ⟨?_, by decide, by decide, by decide, by decide, by decide, by decide,
    by decide, by decide, by decide⟩
  rw [columnName_eq_nameMS, spec_column_name_eq_nameMS,
    Nat.mod_eq_of_lt (show column_id + 1 < U32 by simp only [U32]; omega)]

/-- C1 witness: the refinement instantiated at `column_id = 3`. -/
theorem column_name_follows_spec_algorithm_witness :
    (3 : Nat) < 4294967295 ∧ columnName 3 = spec_column_name 3 :=
  ⟨by decide, (column_name_follows_spec_algorithm 3 (by decide)).1⟩

/-- C2 counterexample: the column at index 349 is named "ML", not "MX". -/
theorem grid_350_name_not_MX :
    ((Grid.new 12 350).1.get_column 349).map Column.get_column_name ≠
      some "MX" := by
  decide

/-- C2 (amended): after `Grid::new(ctx, 12, 350)`, `get_width()` is 28000.0,
`get_column(349)` is present and its name is "ML", and `get_column(350)` is
absent. -/
theorem grid_350_scenario :
    (Grid.new 12 350).1.get_width = 28000 ∧
    ((Grid.new 12 350).1.get_column 349).map Column.get_column_name =
      some "ML" ∧
    (Grid.new 12 350).1.get_column 350 = none := by
  refine ⟨?_, by decide, by decide⟩
  have h := grid_new_width 12 350
  rw [h]
  norm_num

/-- C3: a grid built by `Grid::new(ctx, num_rows, num_cols)` — for any counts,
zero included — has exactly `num_cols` columns, every one of its columns has
exactly `num_rows` cells, and at every valid index pair the column's and the
cells' stored ids match their positions. -/
theorem grid_new_shape (num_rows num_cols : Nat) :
    (Grid.new num_rows num_cols).1.columns.length = num_cols ∧
    (∀ col ∈ (Grid.new num_rows num_cols).1.columns,
      col.cells.length = num_rows) ∧
    (∀ c r, c < num_cols → r < num_rows →
      ∃ col, (Grid.new num_rows num_cols).1.columns.get? c = some col ∧
        col.column_id = c ∧
        ∃ cell, col.cells.get? r = some cell ∧
          cell.column_id = c ∧ cell.row_id = r) := by
  refine ⟨?_, ?_, ?_⟩
  · rw [grid_new_columns]
    simp
  · intro col hcol
    rw [grid_new_columns] at hcol
    rcases List.mem_map.mp hcol with ⟨cid, _, rfl⟩
    rw [column_new_cells]
    simp
  · intro c r hc hr
    refine ⟨(Column.new c num_rows 80).1, ?_, rfl,
      CellObject.new c r 30 80, ?_, rfl, rfl⟩
    · rw [grid_new_columns, List.get?_map, List.get?_range hc]
      rfl
    · rw [column_new_cells, List.get?_map, List.get?_range hr]
      rfl

/-- C4: `Grid::get_width` is the sum of the columns' widths, and on a freshly
constructed grid it equals `num_cols * 80.0`. -/
theorem grid_width_is_sum (g : Grid) (num_rows num_cols : Nat) :
    g.get_width = (g.columns.map Column.get_width).sum ∧
    (Grid.new num_rows num_cols).1.get_width = (num_cols : Rat) * 80 :=
  ⟨rfl, grid_new_width num_rows num_cols⟩

/-- C5: `Grid::new` issues exactly `num_cols * num_rows` border draws, in
ascending column order and, within a column, ascending row order; each draw is
the triple `begin_path`, `rect(column_id*80, row_id*30, 80, 30)`, `stroke`. -/
theorem grid_new_paint_order (num_rows num_cols : Nat) :
    (Grid.new num_rows num_cols).2 =
      ((List.range num_cols).map (fun c : Nat =>
        ((List.range num_rows).map (fun r : Nat =>
          [CanvasOp.beginPath,
           CanvasOp.rect ((c : Rat) * 80) ((r : Rat) * 30) 80 30,
           CanvasOp.stroke])).flatten)).flatten ∧
    (Grid.new num_rows num_cols).2.length = num_cols * num_rows * 3 := by
  refine ⟨grid_new_trace_eq _ _, ?_⟩
  rw [grid_new_trace_eq]
  have inner : ∀ c : Nat,
      (((List.range num_rows).map (fun r : Nat =>
        [CanvasOp.beginPath,
         CanvasOp.rect ((c : Rat) * 80) ((r : Rat) * 30) 80 30,
         CanvasOp.stroke])).flatten).length = num_rows * 3 := by
    intro c
    rw [List.length_flatten, List.map_map]
    have h3 : (List.length ∘ fun r : Nat =>
        [CanvasOp.beginPath,
         CanvasOp.rect ((c : Rat) * 80) ((r : Rat) * 30) 80 30,
         CanvasOp.stroke]) = fun _ => 3 := by
      funext r
      rfl
    rw [h3, sum_map_const_nat]
    simp
  rw [List.length_flatten, List.map_map]
  have houter : (List.length ∘ fun c : Nat =>
      ((List.range num_rows).map (fun r : Nat =>
        [CanvasOp.beginPath,
         CanvasOp.rect ((c : Rat) * 80) ((r : Rat) * 30) 80 30,
         CanvasOp.stroke])).flatten) = fun _ => num_rows * 3 := by
    funext c
    exact inner c
  rw [houter, sum_map_const_nat]
  simp
  ring

/-- C6 counterexample: 0 < 2^32 - 1, yet the name of 0 ("A") does not precede
the name of 2^32 - 1 (the empty string) in the shortlex order. -/
theorem shortlex_violated_at_uint_max :
    (0 : Nat) < 4294967295 ∧
    shortlexLt (columnName 0) (columnName 4294967295) = false := by
  constructor
  · decide
  · decide

/-- C6 (amended): on ids whose increment does not wrap (`b < 2^32 - 1`), the
naming function is strictly monotonic for the order comparing length first,
then lexicographically. -/
theorem column_name_strict_mono (a b : Nat) (hab : a < b)
    (hb : b < 4294967295) :
    shortlexLt (columnName a) (columnName b) = true := by
  rw [columnName_eq_nameMS, columnName_eq_nameMS,
    Nat.mod_eq_of_lt (show a + 1 < U32 by simp only [U32]; omega),
    Nat.mod_eq_of_lt (show b + 1 < U32 by simp only [U32]; omega)]
  have h := nameMS_slex (b + 1) (a + 1) (Nat.succ_pos a) (by omega)
  show (decide ((nameMS (a + 1)).length < (nameMS (b + 1)).length) ||
    ((nameMS (a + 1)).length == (nameMS (b + 1)).length &&
      lexLt (nameMS (a + 1)) (nameMS (b + 1)))) = true
  rcases h with h1 | ⟨h2, h3⟩
  · simp [h1]
  · simp [h2, h3]

/-- C6 witness: the order holds between ids 0 ("A") and 26 ("AA"). -/
theorem column_name_strict_mono_witness :
    (0 : Nat) < 26 ∧ (26 : Nat) < 4294967295 ∧
    shortlexLt (columnName 0) (columnName 26) = true :=
  ⟨by decide, by decide, column_name_strict_mono 0 26 (by decide) (by decide)⟩

/-- C7 counterexample: at `column_id = 2^32 - 1` (still in the u32 range) the
wrapped increment is 0, the loop never runs, and the name is empty. -/
theorem column_name_empty_at_uint_max : columnName 4294967295 = "" := by
  decide

/-- C7 (amended): for every `column_id < 2^32 - 1` the naming function returns
a non-empty string all of whose characters are uppercase A–Z. -/
theorem column_name_total_nonempty (column_id : Nat)
    (h : column_id < 4294967295) :
    columnName column_id ≠ "" ∧
    ∀ c ∈ (columnName column_id).data, 65 ≤ c.toNat ∧ c.toNat ≤ 90 := by
  have hm : (column_id + 1) % U32 = column_id + 1 :=
    Nat.mod_eq_of_lt (by simp only [U32]; omega)
  rw [columnName_eq_nameMS, hm]
  constructor
  · intro he
    have hnil : nameMS (column_id + 1) = [] := congrArg String.data he
    exact nameMS_ne_nil _ (Nat.succ_pos _) hnil
  · exact nameMS_upper _

/-- C7 witness: the amended totality at `column_id = 27`. -/
theorem column_name_total_nonempty_witness :
    (27 : Nat) < 4294967295 ∧ columnName 27 ≠ "" :=
  ⟨by decide, (column_name_total_nonempty 27 (by decide)).1⟩

/-- C8: on a constructed grid, `get_column(i)` is absent exactly when
`i ≥ num_cols`; for `i < num_cols` it returns the column stored at index `i`
(the function is total — no panic — and the model is pure, so the grid is
unchanged). -/
theorem get_column_in_range_iff (num_rows num_cols i : Nat) :
    ((Grid.new num_rows num_cols).1.get_column i = none ↔
      (Grid.new num_rows num_cols).1.num_cols ≤ i) ∧
    (i < (Grid.new num_rows num_cols).1.num_cols →
      ∃ col, (Grid.new num_rows num_cols).1.get_column i = some col ∧
        (Grid.new num_rows num_cols).1.columns.get? i = some col) := by
  have hnum : (Grid.new num_rows num_cols).1.num_cols = num_cols := rfl
  have hlen : (Grid.new num_rows num_cols).1.columns.length = num_cols := by
    rw [grid_new_columns]
    simp
  constructor
  · unfold Grid.get_column
    rw [List.get?_eq_none, hlen, hnum]
  · intro hi
    rw [hnum] at hi
    refine ⟨(Column.new i num_rows 80).1, ?_, ?_⟩
    · unfold Grid.get_column
      rw [grid_new_columns, List.get?_map, List.get?_range hi]
      rfl
    · rw [grid_new_columns, List.get?_map, List.get?_range hi]
      rfl

/-- C9: `Column::set_width` changes only the column's width (reads back via
`get_width`), leaves the cell list — hence every cell's fields — untouched,
and issues no drawing-context calls. -/
theorem set_width_frame (c : Column) (new_width : Rat) :
    (c.set_width new_width).1.get_width = new_width ∧
    (c.set_width new_width).1.cells = c.cells ∧
    (c.set_width new_width).1.column_id = c.column_id ∧
    (c.set_width new_width).1.column_type = c.column_type ∧
    (c.set_width new_width).2 = [] :=
  ⟨rfl, rfl, rfl, rfl, rfl⟩

/-- C10: in every loop iteration the digit `(n-1) % 26` is below 26, the
search over the enumerated letters A–Z succeeds (the no-match branch is
unreachable), and exactly one character is appended to the accumulator. -/
theorem name_loop_digit_safe (n : Nat) (acc : List Char) (h : 0 < n) :
    (n - 1) % 26 < 26 ∧
    az.enum.find? (fun p => p.1 == (n - 1) % 26) =
      some ((n - 1) % 26, 65 + (n - 1) % 26) ∧
    nameLoop n acc =
      nameLoop ((n - 1) / 26) (acc ++ [Char.ofNat (65 + (n - 1) % 26)]) :=
  ⟨Nat.mod_lt _ (by norm_num), find_az _ (Nat.mod_lt _ (by norm_num)),
    nameLoop_pos n acc h⟩

/-- C10 witness: one iteration at `n = 53` on the empty accumulator. -/
theorem name_loop_digit_safe_witness :
    (0 : Nat) < 53 ∧
    nameLoop 53 [] =
      nameLoop ((53 - 1) / 26) ([] ++ [Char.ofNat (65 + (53 - 1) % 26)]) :=
  ⟨by decide, (name_loop_digit_safe 53 [] (by decide)).2.2⟩
